import Mathlib

/-!
Verification of the display pipeline of a terminal emulator (xterm.js fork):
a reflow index mapping logical lines to physical-row spans (`LineWrap`), a
render scheduler coalescing dirty-row ranges (`Renderer`), and the cell
compositor's attribute decoding, blank trimming and row chunking.

The definitions are shallow embeddings of the TypeScript sources:
`src/utils/LineWrap.ts` revisions (the most developed revision is the one
with `changeLineLength(lines, length, cursorPos)`, `addRowToLine`,
`trimStart` and `rowCount`) and `src/Renderer.ts`.  JavaScript numbers are
modelled as `Int` (all indices stay far below 2^53, so no overflow model is
needed); fallible accesses (dereferencing `undefined`) are modelled with
`Option`, `none` standing for a thrown `TypeError`.
-/

/-- A buffer cell `[attr, char, width]` as stored in a terminal line. -/
structure Cell where
  attr : Int
  ch : Char
  cw : Nat
deriving DecidableEq, Repr

/-- A terminal line: an ordered sequence of cells. -/
abbrev JsLine := List Cell

namespace LineWrap

/-- One reflow-index entry, the `IRowIndex`/`RowIndex` record of
`LineWrap.ts`: logical line `lineIndex` occupies the inclusive physical-row
span `[startIndex, endIndex]`; `lineLength` is the optional cached
content-length sample (`lineStats.lineLength`). -/
structure RowIndex where
  lineIndex : Int
  startIndex : Int
  endIndex : Int
  lineLength : Option Int
deriving DecidableEq, Repr

/-- Number of physical rows an entry spans: `endIndex - startIndex + 1`. -/
def spanLen (e : RowIndex) : Int :=
  e.endIndex - e.startIndex + 1

/-- The `rowCount` getter: sum of `endIndex - startIndex + 1` over all
entries. -/
def rowCount (es : List RowIndex) : Int :=
  (es.map spanLen).sum

/-- The span-membership test used by `getRowIndex` and `addRowToLine`:
`index >= r.startIndex && index <= r.endIndex`. -/
def coversB (index : Int) (e : RowIndex) : Bool :=
  decide (e.startIndex ≤ index) && decide (index ≤ e.endIndex)

/-- `getRowIndex(index)`: first entry whose span contains `index`
(`filter(...)[0]`); `none` models the `undefined` / `NotFound` result. -/
def getRowIndex (es : List RowIndex) (index : Int) : Option RowIndex :=
  (es.filter (coversB index)).head?

/-- `Math.ceil(l / w)` for an integer `l` and a positive integer width `w`,
via the identity `ceil(l/w) = floor((l + w - 1)/w)`. -/
def ceilDiv (l : Int) (w : Nat) : Int :=
  Int.ediv (l + w - 1) w

/-- The per-line row count computed inside `changeLineLength`:
`Math.ceil(lineLength / length) > 0 ? Math.ceil(lineLength / length) : 1`. -/
def newRowCountInLine (l : Int) (w : Nat) : Int :=
  if 0 < ceilDiv l w then ceilDiv l w else 1

/-- The loop body of `changeLineLength`, threading the `prevLine` and
`foundCursor` mutable variables.  A retained entry (its logical line is
still in the buffer) gets a recomputed span from its cached `lineLength`
if present, else from `cursorPos` for the first such uncached entry and
`0` for every later one; an orphaned entry keeps its span length.  Every
entry after the first starts at `prevLine.endIndex + 1`. -/
def changeLineLengthGo (lines : Int → Option JsLine) (w : Nat) (cursorPos : Int) :
    Option RowIndex → Bool → List RowIndex → List RowIndex
  | _, _, [] => []
  | prevLine, foundCursor, e :: rest =>
    if (lines e.lineIndex).isSome then
      let ll : Int × Bool :=
        match e.lineLength with
        | some l => (l, foundCursor)
        | none => if foundCursor then (0, true) else (cursorPos, true)
      let k := newRowCountInLine ll.1 w
      let s := match prevLine with
        | some p => p.endIndex + 1
        | none => e.startIndex
      let e' : RowIndex := { e with startIndex := s, endIndex := s + k - 1 }
      e' :: changeLineLengthGo lines w cursorPos (some e') ll.2 rest
    else
      let s := match prevLine with
        | some p => p.endIndex + 1
        | none => e.startIndex
      let e' : RowIndex := { e with startIndex := s, endIndex := s + (e.endIndex - e.startIndex) }
      e' :: changeLineLengthGo lines w cursorPos (some e') foundCursor rest

/-- `changeLineLength(lines, length, cursorPos)` of the developed
`LineWrap` revision: full recompute of all spans. -/
def changeLineLength (lines : Int → Option JsLine) (w : Nat) (cursorPos : Int)
    (es : List RowIndex) : List RowIndex :=
  changeLineLengthGo lines w cursorPos none false es

/-- In-place mutation of the first entry satisfying `p` (the
`filter(...)[0]` followed by field assignments pattern of `addRowToLine`);
no entry matches, nothing changes. -/
def updateFirst (p : RowIndex → Bool) (f : RowIndex → RowIndex) :
    List RowIndex → List RowIndex
  | [] => []
  | e :: rest => if p e then f e :: rest else e :: updateFirst p f rest

/-- Shift an entry's whole span one row down:
`startIndex++; endIndex++`. -/
def shiftSpan (e : RowIndex) : RowIndex :=
  { e with startIndex := e.startIndex + 1, endIndex := e.endIndex + 1 }

/-- The inner loop of `addRowToLine`:
`for (i = c + 1; i < length; i++)` find the entry with `lineIndex === i`
and shift its span; `fuel` counts the remaining iterations. -/
def shiftLoop (es : List RowIndex) (i : Int) : Nat → List RowIndex
  | 0 => es
  | fuel + 1 =>
    shiftLoop (updateFirst (fun e => e.lineIndex == i) shiftSpan es) (i + 1) fuel

/-- `addRowToLine(index)`: grow the span of the line covering physical row
`index` by one row, then shift every later entry (found by `lineIndex`) to
stay contiguous.  `none` models the `TypeError` thrown when no entry covers
`index` (`lineContainingRowIndex.endIndex++` on `undefined`). -/
def addRowToLine (es : List RowIndex) (index : Int) : Option (List RowIndex) :=
  match (es.filter (coversB index)).head? with
  | none => none
  | some cov =>
    let es1 := updateFirst (coversB index)
      (fun e => { e with endIndex := e.endIndex + 1 }) es
    some (shiftLoop es1 (cov.lineIndex + 1)
      ((es1.length - (cov.lineIndex + 1)).toNat))

/-- `LineWrap` carrier for the `trimStart` claim: the entry list of the
backing `CircularList` together with its fixed capacity `maxLength`. -/
structure LineWrapState where
  entries : List RowIndex
  maxLength : Nat
deriving DecidableEq, Repr

/-- Subtract `count` from all three index fields of an entry, as the
`trimStart` adjustment loop does. -/
def decAll (count : Int) (e : RowIndex) : RowIndex :=
  { e with lineIndex := e.lineIndex - count,
           startIndex := e.startIndex - count,
           endIndex := e.endIndex - count }

/-- Modelled from the spec: `CircularList.get` is not part of the sources
(only `LineWrap` is); per §4.1 "all indices are validated against current
length; an invalid index fails with `IndexOutOfRange`", so an access at
`i ≥ length` is a failure (`none`). -/
def clGet (es : List RowIndex) (i : Nat) : Option RowIndex :=
  if h : i < es.length then some (es.get ⟨i, h⟩) else none

/-- The adjustment loop of `LineWrap.trimStart`: for `i` from `0` to
`maxLength - 1`, dereference entry `i` and subtract `count` from its three
index fields; dereferencing an absent entry fails.  `fuel` counts the
remaining iterations (`i + fuel = maxLength`). -/
def trimLoop (count : Int) (i : Nat) : Nat → List RowIndex → Option (List RowIndex)
  | 0, es => some es
  | fuel + 1, es =>
    match clGet es i with
    | none => none
    | some e => trimLoop count (i + 1) fuel (es.set i (decAll count e))

/-- `trimStart(count)`: drop the oldest `count` entries (modelled from the
spec for the missing `CircularList.trimStart`: "drop the oldest `count`
elements"), then run the adjustment loop over all `maxLength` positions. -/
def trimStart (s : LineWrapState) (count : Nat) : Option LineWrapState :=
  (trimLoop count 0 s.maxLength (s.entries.drop count)).map
    (fun es => { entries := es, maxLength := s.maxLength })

/-- Adjacency invariant: every consecutive pair of entries satisfies
`startIndex(i+1) == endIndex(i) + 1`. -/
def adjacentB : List RowIndex → Bool
  | [] => true
  | [_] => true
  | e :: f :: rest => (f.startIndex == e.endIndex + 1) && adjacentB (f :: rest)

/-- Entries form a contiguous chain of nonempty spans starting at row `k`:
each entry starts where told, spans at least one row, and the next entry
continues at `endIndex + 1`. -/
def chainFromB (k : Int) : List RowIndex → Bool
  | [] => true
  | e :: rest =>
    (e.startIndex == k) && decide (e.startIndex ≤ e.endIndex) &&
      chainFromB (e.endIndex + 1) rest

/-- The entry at list position `j` carries `lineIndex = j` (the canonical
layout produced by `push`, in which logical positions and `lineIndex`
agree). -/
def posB (j : Int) : List RowIndex → Bool
  | [] => true
  | e :: rest => (e.lineIndex == j) && posB (j + 1) rest

/-- The first entry (if any) starts at physical row 0. -/
def headStart0B : List RowIndex → Bool
  | [] => true
  | e :: _ => e.startIndex == 0

/-- Row `r` lies in the inclusive span of entry `e`. -/
def coversRow (e : RowIndex) (r : Int) : Prop :=
  e.startIndex ≤ r ∧ r ≤ e.endIndex

instance coversRowDecidable (e : RowIndex) (r : Int) : Decidable (coversRow e r) :=
  inferInstanceAs (Decidable (_ ∧ _))

/-- Every orphaned entry (logical line no longer in the buffer) has a
well-formed span, `startIndex ≤ endIndex`. -/
def orphanSpansOkB (lines : Int → Option JsLine) (es : List RowIndex) : Bool :=
  es.all (fun e => (lines e.lineIndex).isSome || decide (e.startIndex ≤ e.endIndex))

/-- The entries partition `[0, rowCount)`: exactly the rows in that range
are covered (no gap), and the spans are strictly ordered, hence pairwise
disjoint (no overlap). -/
def PartitionsRows (es : List RowIndex) : Prop :=
  (∀ r : Int, (0 ≤ r ∧ r < rowCount es) ↔ ∃ e ∈ es, coversRow e r) ∧
    es.Pairwise (fun a b => a.endIndex < b.startIndex)

/-- Modelled from the spec (for claim comparison only): the "significant
length" of a live line, "the live content length with trailing blanks
stripped down to a one-character minimum". -/
def specSignificantLength (line : JsLine) : Int :=
  max 1 ((line.reverse.dropWhile (fun c => c.ch == ' ')).length : Int)

/-- Modelled from the spec (for claim comparison only): the per-entry row
counts the claim predicts for `changeLineLength`: `max(1,
ceil(significantLength / width))` with the cached sample taking precedence,
orphaned entries keeping their span. -/
def specRowCountsFromContent (lines : Int → Option JsLine) (w : Nat) :
    List RowIndex → List Int
  | [] => []
  | e :: rest =>
    (match e.lineLength with
     | some l => max 1 (ceilDiv l w)
     | none =>
       match lines e.lineIndex with
       | some line => max 1 (ceilDiv (specSignificantLength line) w)
       | none => spanLen e) :: specRowCountsFromContent lines w rest

/-- The per-entry row counts `changeLineLength` actually assigns, with the
`foundCursor` fallback: the cached sample if present, else `cursorPos` for
the first uncached retained entry and `0` for every later one; orphaned
entries keep their span length. -/
def layoutRowCounts (lines : Int → Option JsLine) (w : Nat) (cursorPos : Int) :
    Bool → List RowIndex → List Int
  | _, [] => []
  | foundCursor, e :: rest =>
    if (lines e.lineIndex).isSome then
      match e.lineLength with
      | some l => max 1 (ceilDiv l w) :: layoutRowCounts lines w cursorPos foundCursor rest
      | none =>
        if foundCursor then
          max 1 (ceilDiv 0 w) :: layoutRowCounts lines w cursorPos true rest
        else
          max 1 (ceilDiv cursorPos w) :: layoutRowCounts lines w cursorPos true rest
    else
      spanLen e :: layoutRowCounts lines w cursorPos foundCursor rest

end LineWrap

namespace Renderer

/-- `MAX_REFRESH_FRAME_SKIP`: "the maximum number of refresh frames to skip
when the write buffer is non-empty". -/
def MAX_REFRESH_FRAME_SKIP : Nat := 5

/-- A queued inclusive dirty-row range `{start, end}`. -/
structure DirtyRange where
  start : Int
  endRow : Int
deriving DecidableEq, Repr

/-- The scheduler fields of `Renderer`: `_refreshRowsQueue`,
`_refreshFramesSkipped`, and whether `_refreshAnimationFrame` is armed
(non-null). -/
structure SchedState where
  refreshRowsQueue : List DirtyRange
  refreshFramesSkipped : Nat
  refreshAnimationFrame : Bool
deriving DecidableEq, Repr

/-- `queueRefresh(start, end)`: append a dirty range and arm the frame
callback if it is not armed yet (arming is idempotent). -/
def queueRefresh (s : SchedState) (st en : Int) : SchedState :=
  { s with refreshRowsQueue := s.refreshRowsQueue ++ [⟨st, en⟩],
           refreshAnimationFrame := true }

/-- One firing of `_refreshLoop`, given the current `writeBuffer.length`
and the terminal's `rows`.  `some (s', none)` is a skipped (re-armed)
frame; `some (s', some (st, en))` dispatches exactly one merged refresh
over `[st, en]`; `none` models the `TypeError` of reading
`_refreshRowsQueue[0]` from an empty queue.  The skip test is
`writeBuffer.length > 0 && _refreshFramesSkipped++ <= MAX_REFRESH_FRAME_SKIP`
with a short-circuited post-increment. -/
def refreshLoop (s : SchedState) (writeBufferLen : Nat) (rows : Int) :
    Option (SchedState × Option (Int × Int)) :=
  let fs1 := if 0 < writeBufferLen then s.refreshFramesSkipped + 1
             else s.refreshFramesSkipped
  if 0 < writeBufferLen ∧ s.refreshFramesSkipped ≤ MAX_REFRESH_FRAME_SKIP then
    some ({ s with refreshFramesSkipped := fs1, refreshAnimationFrame := true }, none)
  else if 4 < s.refreshRowsQueue.length then
    some ({ refreshRowsQueue := [], refreshFramesSkipped := 0,
            refreshAnimationFrame := false }, some (0, rows - 1))
  else
    match s.refreshRowsQueue with
    | [] => none
    | d :: rest =>
      some ({ refreshRowsQueue := [], refreshFramesSkipped := 0,
              refreshAnimationFrame := false },
        some (rest.foldl
          (fun p d' => (min p.1 d'.start, max p.2 d'.endRow))
          (d.start, d.endRow)))

/-- The CSS class names the compositor can push while decoding one cell's
attributes; each constructor stands for the string of the same shape
(`xterm-bold`, `xterm-underline`, `xterm-blink`, `xterm-hidden`,
`xterm-bg-color-N`, `xterm-color-N`). -/
inductive CssClass where
  | bold
  | underline
  | blink
  | hidden
  | bgColor (idx : Int)
  | fgColor (idx : Int)
deriving DecidableEq, Repr

/-- The decoded result of one attribute word: final background index,
final foreground index, and the pushed class names in order. -/
structure DecodedAttr where
  bg : Int
  fg : Int
  classNames : List CssClass
deriving DecidableEq, Repr

/-- The attribute-decoding block of `Renderer._refresh` for one non-default
non-cursor cell: `bg = data & 0x1ff`, `fg = (data >> 9) & 0x1ff`,
`flags = data >> 18`; bold promotion, inverse swap with its extra bold
re-promotion, and the inverse sentinel pinning (`bg === 257 → 15`,
`fg === 256 → 0`), then the colour classes. -/
def decodeAttr (data : Nat) (brokenBold : Bool) : DecodedAttr :=
  let bg : Int := (data % 512 : Nat)
  let fg : Int := ((data / 512) % 512 : Nat)
  let flags : Nat := data / 262144
  let classNames : List CssClass := []
  let classNames := if flags.testBit 0 ∧ ¬brokenBold
    then classNames ++ [CssClass.bold] else classNames
  let fg := if flags.testBit 0 ∧ fg < 8 then fg + 8 else fg
  let classNames := if flags.testBit 1
    then classNames ++ [CssClass.underline] else classNames
  let classNames := if flags.testBit 2
    then classNames ++ [CssClass.blink] else classNames
  let swapped := if flags.testBit 3 then (fg, bg) else (bg, fg)
  let bg := swapped.1
  let fg := swapped.2
  let fg := if flags.testBit 3 ∧ flags.testBit 0 ∧ fg < 8 then fg + 8 else fg
  let classNames := if flags.testBit 4
    then classNames ++ [CssClass.hidden] else classNames
  let bg := if flags.testBit 3 ∧ bg = 257 then 15 else bg
  let fg := if flags.testBit 3 ∧ fg = 256 then 0 else fg
  let classNames := if bg < 256 then classNames ++ [CssClass.bgColor bg] else classNames
  let classNames := if fg < 256 then classNames ++ [CssClass.fgColor fg] else classNames
  ⟨bg, fg, classNames⟩

/-- The downward scan of `trimBlank`: starting at `line.length - 1`, find
the first index (from the right) whose cell breaks the scan — any
non-space at or beyond `mn`, and below `mn` any cell that is not a default
blank (`char !== ' ' || attr !== blank`); `-1` if the scan runs out. The
argument is the current index plus one. -/
def trimBlankScan (line : JsLine) (mn : Nat) (blank : Int) : Nat → Int
  | 0 => -1
  | i + 1 =>
    let c := line.getD i ⟨0, ' ', 1⟩
    if mn ≤ i then
      if c.ch ≠ ' ' then (i : Int) else trimBlankScan line mn blank i
    else
      if c.ch ≠ ' ' ∨ c.attr ≠ blank then (i : Int) else trimBlankScan line mn blank i

/-- `trimBlank(line, min, blank)`: strip trailing whitespace down to a
minimum length; when content survives past the minimum, keep two extra
blank cells ("allows for cursor and ensures at least one element"). -/
def trimBlank (line : JsLine) (mn : Nat) (blank : Int) : JsLine :=
  let i := trimBlankScan line mn blank line.length
  let j : Int := if i < (mn : Int) then (mn : Int) else i + 2
  line.take j.toNat

/-- The loop of `chunkArray`, with `fuel` bounding the number of chunks
(`line.length` is always enough when `chunkSize ≥ 1`; the source loop does
not terminate for `chunkSize = 0`, modelled here by exhausting the fuel). -/
def chunkGo (fuel : Nat) (l : JsLine) (chunkSize : Nat) : List JsLine :=
  match fuel with
  | 0 => []
  | fuel + 1 =>
    if l = [] ∨ chunkSize = 0 then []
    else l.take chunkSize :: chunkGo fuel (l.drop chunkSize) chunkSize

/-- `chunkArray(array, chunkSize)`: slice the line into consecutive chunks
of `chunkSize` cells, the last chunk possibly shorter. -/
def chunkArray (l : JsLine) (chunkSize : Nat) : List JsLine :=
  chunkGo l.length l chunkSize

end Renderer

namespace LineWrap

theorem newRowCountInLine_pos (l : Int) (w : Nat) : 1 ≤ newRowCountInLine l w := by
  unfold newRowCountInLine
  split <;> omega

theorem newRowCountInLine_eq_max (l : Int) (w : Nat) :
    newRowCountInLine l w = max 1 (ceilDiv l w) := by
  unfold newRowCountInLine
  split <;> omega

theorem chainFromB_cons {k : Int} {e : RowIndex} {rest : List RowIndex} :
    chainFromB k (e :: rest) = true ↔
      e.startIndex = k ∧ e.startIndex ≤ e.endIndex ∧
        chainFromB (e.endIndex + 1) rest = true := by
  simp [chainFromB, Bool.and_eq_true, and_assoc]

theorem rowCount_nil : rowCount [] = 0 := rfl

theorem rowCount_cons (e : RowIndex) (rest : List RowIndex) :
    rowCount (e :: rest) = spanLen e + rowCount rest := by
  simp [rowCount]

theorem chain_start_le {k : Int} {es : List RowIndex} (h : chainFromB k es = true) :
    ∀ e ∈ es, k ≤ e.startIndex := by
  induction es generalizing k with
  | nil => intro e he; simp at he
  | cons a rest ih =>
    rw [chainFromB_cons] at h
    intro e he
    rcases List.mem_cons.mp he with rfl | hmem
    · omega
    · have := ih h.2.2 e hmem
      omega

theorem chain_rowCount_nonneg {k : Int} {es : List RowIndex}
    (h : chainFromB k es = true) : 0 ≤ rowCount es := by
  induction es generalizing k with
  | nil => simp [rowCount]
  | cons a rest ih =>
    rw [chainFromB_cons] at h
    have := ih h.2.2
    have hspan : 1 ≤ spanLen a := by
      simp only [spanLen]; omega
    rw [rowCount_cons]
    omega

theorem chain_end_lt {k : Int} {es : List RowIndex} (h : chainFromB k es = true) :
    ∀ e ∈ es, e.endIndex < k + rowCount es := by
  induction es generalizing k with
  | nil => intro e he; simp at he
  | cons a rest ih =>
    rw [chainFromB_cons] at h
    intro e he
    have hspan : spanLen a = a.endIndex - a.startIndex + 1 := rfl
    rcases List.mem_cons.mp he with rfl | hmem
    · have := chain_rowCount_nonneg h.2.2
      rw [rowCount_cons]
      omega
    · have := ih h.2.2 e hmem
      rw [rowCount_cons]
      omega

theorem chain_partition {k : Int} {es : List RowIndex} (h : chainFromB k es = true) :
    (∀ r : Int, (k ≤ r ∧ r < k + rowCount es) ↔ ∃ e ∈ es, coversRow e r) ∧
      es.Pairwise (fun a b => a.endIndex < b.startIndex) := by
  induction es generalizing k with
  | nil =>
    constructor
    · intro r
      simp [rowCount]
    · exact List.Pairwise.nil
  | cons a rest ih =>
    rw [chainFromB_cons] at h
    obtain ⟨hstart, hspan, hchain⟩ := h
    obtain ⟨ihcov, ihpw⟩ := ih hchain
    constructor
    · intro r
      rw [rowCount_cons]
      constructor
      · rintro ⟨hkr, hlt⟩
        by_cases hre : r ≤ a.endIndex
        · exact ⟨a, List.mem_cons_self a rest, by constructor <;> omega⟩
        · push_neg at hre
          have : a.endIndex + 1 ≤ r ∧ r < (a.endIndex + 1) + rowCount rest := by
            simp only [spanLen] at hlt
            omega
          obtain ⟨e, he, hcov⟩ := (ihcov r).mp this
          exact ⟨e, List.mem_cons_of_mem a he, hcov⟩
      · rintro ⟨e, he, hcov⟩
        rcases List.mem_cons.mp he with rfl | hmem
        · have := chain_rowCount_nonneg hchain
          simp only [coversRow] at hcov
          simp only [spanLen]
          omega
        · have := (ihcov r).mpr ⟨e, hmem, hcov⟩
          simp only [spanLen]
          omega
    · refine List.Pairwise.cons ?_ ihpw
      intro b hb
      have := chain_start_le hchain b hb
      omega

theorem chain_imp_adjacent {k : Int} {es : List RowIndex}
    (h : chainFromB k es = true) : adjacentB es = true := by
  induction es generalizing k with
  | nil => rfl
  | cons a rest ih =>
    rw [chainFromB_cons] at h
    obtain ⟨hstart, hspan, hchain⟩ := h
    cases rest with
    | nil => rfl
    | cons b rbs =>
      have hb := (chainFromB_cons.mp hchain).1
      simp only [adjacentB, Bool.and_eq_true, beq_iff_eq]
      exact ⟨hb, ih hchain⟩

theorem partitionsRows_of_chain {es : List RowIndex} (h : chainFromB 0 es = true) :
    PartitionsRows es := by
  obtain ⟨hcov, hpw⟩ := chain_partition h
  refine ⟨fun r => ?_, hpw⟩
  simpa using hcov r

theorem go_adjacent (lines : Int → Option JsLine) (w : Nat) (cp : Int)
    (es : List RowIndex) : ∀ (fc : Bool) (p : RowIndex),
    adjacentB (p :: changeLineLengthGo lines w cp (some p) fc es) = true := by
  induction es with
  | nil => intro fc p; rfl
  | cons e rest ih =>
    intro fc p
    by_cases hr : (lines e.lineIndex).isSome
    · cases hl : e.lineLength with
      | none =>
        cases fc <;>
          simp only [changeLineLengthGo, hr, hl, if_true, Bool.false_eq_true,
            if_false, adjacentB, Bool.and_eq_true, beq_iff_eq] <;>
          exact ⟨trivial, ih _ _⟩
      | some l =>
        simp only [changeLineLengthGo, hr, hl, if_true, adjacentB,
          Bool.and_eq_true, beq_iff_eq]
        exact ⟨trivial, ih _ _⟩
    · simp only [changeLineLengthGo, hr, Bool.false_eq_true, if_false, adjacentB,
        Bool.and_eq_true, beq_iff_eq]
      exact ⟨trivial, ih _ _⟩

theorem adjacentB_of_cons {x : RowIndex} {l : List RowIndex}
    (h : adjacentB (x :: l) = true) : adjacentB l = true := by
  cases l with
  | nil => rfl
  | cons f t =>
    simp only [adjacentB, Bool.and_eq_true] at h
    exact h.2

theorem changeLineLength_adjacent (lines : Int → Option JsLine) (w : Nat)
    (cp : Int) (es : List RowIndex) :
    adjacentB (changeLineLength lines w cp es) = true := by
  cases es with
  | nil => rfl
  | cons e rest =>
    unfold changeLineLength
    by_cases hr : (lines e.lineIndex).isSome
    · cases hl : e.lineLength with
      | none =>
        simp only [changeLineLengthGo, hr, hl, if_true, Bool.false_eq_true, if_false]
        exact go_adjacent lines w cp rest true _
      | some l =>
        simp only [changeLineLengthGo, hr, hl, if_true]
        exact go_adjacent lines w cp rest false _
    · simp only [changeLineLengthGo, hr, Bool.false_eq_true, if_false]
      exact go_adjacent lines w cp rest false _

theorem go_chain (lines : Int → Option JsLine) (w : Nat) (cp : Int) :
    ∀ (es : List RowIndex) (fc : Bool) (p : RowIndex),
    (∀ e ∈ es, (lines e.lineIndex).isSome = false → e.startIndex ≤ e.endIndex) →
    chainFromB (p.endIndex + 1) (changeLineLengthGo lines w cp (some p) fc es) = true := by
  intro es
  induction es with
  | nil => intro fc p _; rfl
  | cons e rest ih =>
    intro fc p horph
    have horph' : ∀ x ∈ rest, (lines x.lineIndex).isSome = false →
        x.startIndex ≤ x.endIndex :=
      fun x hx => horph x (List.mem_cons_of_mem e hx)
    by_cases hr : (lines e.lineIndex).isSome
    · cases hl : e.lineLength with
      | some l =>
        simp only [changeLineLengthGo, hr, hl, if_true]
        rw [chainFromB_cons]
        refine ⟨rfl, ?_, ih fc _ horph'⟩
        show p.endIndex + 1 ≤ p.endIndex + 1 + newRowCountInLine l w - 1
        have := newRowCountInLine_pos l w
        omega
      | none =>
        cases fc with
        | false =>
          simp only [changeLineLengthGo, hr, hl, Bool.false_eq_true, if_false, if_true]
          rw [chainFromB_cons]
          refine ⟨rfl, ?_, ih true _ horph'⟩
          show p.endIndex + 1 ≤ p.endIndex + 1 + newRowCountInLine cp w - 1
          have := newRowCountInLine_pos cp w
          omega
        | true =>
          simp only [changeLineLengthGo, hr, hl, if_true]
          rw [chainFromB_cons]
          refine ⟨rfl, ?_, ih true _ horph'⟩
          show p.endIndex + 1 ≤ p.endIndex + 1 + newRowCountInLine 0 w - 1
          have := newRowCountInLine_pos 0 w
          omega
    · simp only [changeLineLengthGo, hr, Bool.false_eq_true, if_false]
      rw [chainFromB_cons]
      have hsp : e.startIndex ≤ e.endIndex :=
        horph e (List.mem_cons_self e rest) (by simpa using hr)
      refine ⟨rfl, ?_, ih fc _ horph'⟩
      show p.endIndex + 1 ≤ p.endIndex + 1 + (e.endIndex - e.startIndex)
      omega

theorem changeLineLength_chain (lines : Int → Option JsLine) (w : Nat) (cp : Int)
    (es : List RowIndex) (h0 : headStart0B es = true)
    (horph : ∀ e ∈ es, (lines e.lineIndex).isSome = false →
      e.startIndex ≤ e.endIndex) :
    chainFromB 0 (changeLineLength lines w cp es) = true := by
  cases es with
  | nil => rfl
  | cons e rest =>
    have he0 : e.startIndex = 0 := by
      simpa [headStart0B] using h0
    have horph' : ∀ x ∈ rest, (lines x.lineIndex).isSome = false →
        x.startIndex ≤ x.endIndex :=
      fun x hx => horph x (List.mem_cons_of_mem e hx)
    unfold changeLineLength
    by_cases hr : (lines e.lineIndex).isSome
    · cases hl : e.lineLength with
      | some l =>
        simp only [changeLineLengthGo, hr, hl, if_true]
        rw [chainFromB_cons]
        refine ⟨he0, ?_, go_chain lines w cp rest false _ horph'⟩
        show e.startIndex ≤ e.startIndex + newRowCountInLine l w - 1
        have := newRowCountInLine_pos l w
        omega
      | none =>
        simp only [changeLineLengthGo, hr, hl, Bool.false_eq_true, if_false, if_true]
        rw [chainFromB_cons]
        refine ⟨he0, ?_, go_chain lines w cp rest true _ horph'⟩
        show e.startIndex ≤ e.startIndex + newRowCountInLine cp w - 1
        have := newRowCountInLine_pos cp w
        omega
    · simp only [changeLineLengthGo, hr, Bool.false_eq_true, if_false]
      rw [chainFromB_cons]
      have hsp : e.startIndex ≤ e.endIndex :=
        horph e (List.mem_cons_self e rest) (by simpa using hr)
      refine ⟨he0, ?_, go_chain lines w cp rest false _ horph'⟩
      show e.startIndex ≤ e.startIndex + (e.endIndex - e.startIndex)
      omega

theorem go_spanLens (lines : Int → Option JsLine) (w : Nat) (cp : Int) :
    ∀ (es : List RowIndex) (fc : Bool) (prev : Option RowIndex),
    (changeLineLengthGo lines w cp prev fc es).map spanLen =
      layoutRowCounts lines w cp fc es := by
  intro es
  induction es with
  | nil => intro fc prev; rfl
  | cons e rest ih =>
    intro fc prev
    by_cases hr : (lines e.lineIndex).isSome
    · cases hl : e.lineLength with
      | some l =>
        simp only [changeLineLengthGo, layoutRowCounts, hr, hl, if_true,
          List.map_cons, newRowCountInLine_eq_max, ih]
        congr 1
        simp only [spanLen]
        ring
      | none =>
        cases fc <;>
          [skip; skip] <;>
          · simp only [changeLineLengthGo, layoutRowCounts, hr, hl, if_true,
              Bool.false_eq_true, if_false, List.map_cons,
              newRowCountInLine_eq_max, ih]
            congr 1
            simp only [spanLen]
            ring
    · simp only [changeLineLengthGo, layoutRowCounts, hr, Bool.false_eq_true,
        if_false, List.map_cons, ih]
      congr 1
      simp only [spanLen]
      ring

theorem changeLineLength_spanLens (lines : Int → Option JsLine) (w : Nat)
    (cp : Int) (es : List RowIndex) :
    (changeLineLength lines w cp es).map spanLen =
      layoutRowCounts lines w cp false es :=
  go_spanLens lines w cp es false none

theorem go_idem (lines : Int → Option JsLine) (w : Nat) (cp : Int) :
    ∀ (es : List RowIndex) (prev : Option RowIndex) (fc : Bool),
    changeLineLengthGo lines w cp prev fc (changeLineLengthGo lines w cp prev fc es) =
      changeLineLengthGo lines w cp prev fc es := by
  intro es
  induction es with
  | nil => intro prev fc; rfl
  | cons e rest ih =>
    intro prev fc
    have harith : ∀ s d : Int, s + (s + d - s) = s + d := by
      intro s d; ring
    by_cases hr : (lines e.lineIndex).isSome
    · cases hl : e.lineLength with
      | some l =>
        cases prev <;>
          simp only [changeLineLengthGo, hr, hl, if_true, ih]
      | none =>
        cases prev <;> cases fc <;>
          simp only [changeLineLengthGo, hr, hl, if_true, Bool.false_eq_true,
            if_false, ih]
    · cases prev <;>
        simp only [changeLineLengthGo, hr, Bool.false_eq_true, if_false, harith, ih]

theorem changeLineLength_idem (lines : Int → Option JsLine) (w : Nat) (cp : Int)
    (es : List RowIndex) :
    changeLineLength lines w cp (changeLineLength lines w cp es) =
      changeLineLength lines w cp es :=
  go_idem lines w cp es none false

theorem coversB_eq_true {r : Int} {e : RowIndex} :
    coversB r e = true ↔ e.startIndex ≤ r ∧ r ≤ e.endIndex := by
  simp [coversB]

theorem chain_cover_split {es : List RowIndex} {k r : Int}
    (h : chainFromB k es = true) (hkr : k ≤ r) (hlt : r < k + rowCount es) :
    ∃ l₁ e l₂, es = l₁ ++ e :: l₂ ∧ coversB r e = true ∧
      ∀ x ∈ l₁, coversB r x = false := by
  induction es generalizing k with
  | nil =>
    rw [rowCount_nil] at hlt
    omega
  | cons a rest ih =>
    rw [chainFromB_cons] at h
    obtain ⟨hstart, hspan, hchain⟩ := h
    by_cases hre : r ≤ a.endIndex
    · exact ⟨[], a, rest, rfl, coversB_eq_true.mpr ⟨by omega, hre⟩, by simp⟩
    · push_neg at hre
      have hlt' : r < (a.endIndex + 1) + rowCount rest := by
        rw [rowCount_cons] at hlt
        simp only [spanLen] at hlt
        omega
      obtain ⟨l₁, e, l₂, heq, hcov, hall⟩ := ih hchain (by omega) hlt'
      refine ⟨a :: l₁, e, l₂, by simp [heq], hcov, ?_⟩
      intro x hx
      rcases List.mem_cons.mp hx with rfl | hmem
      · simp [coversB]
        omega
      · exact hall x hmem

theorem filter_head_of_split (p : RowIndex → Bool) (l₁ l₂ : List RowIndex)
    (e : RowIndex) (h₁ : ∀ x ∈ l₁, p x = false) (he : p e = true) :
    ((l₁ ++ e :: l₂).filter p).head? = some e := by
  induction l₁ with
  | nil => simp [List.filter_cons, he]
  | cons a l ih =>
    have ha : p a = false := h₁ a (List.mem_cons_self a l)
    simp only [List.cons_append, List.filter_cons, ha]
    exact ih (fun x hx => h₁ x (List.mem_cons_of_mem a hx))

theorem updateFirst_split (p : RowIndex → Bool) (f : RowIndex → RowIndex)
    (l₁ l₂ : List RowIndex) (e : RowIndex)
    (h₁ : ∀ x ∈ l₁, p x = false) (he : p e = true) :
    updateFirst p f (l₁ ++ e :: l₂) = l₁ ++ f e :: l₂ := by
  induction l₁ with
  | nil => simp [updateFirst, he]
  | cons a l ih =>
    have ha : p a = false := h₁ a (List.mem_cons_self a l)
    simp only [List.cons_append, updateFirst, ha, Bool.false_eq_true, if_false,
      List.append_eq]
    rw [ih (fun x hx => h₁ x (List.mem_cons_of_mem a hx))]

theorem posB_cons {j : Int} {e : RowIndex} {rest : List RowIndex} :
    posB j (e :: rest) = true ↔ e.lineIndex = j ∧ posB (j + 1) rest = true := by
  simp [posB]

theorem posB_append {l₁ l₂ : List RowIndex} {j : Int} (h : posB j (l₁ ++ l₂) = true) :
    posB j l₁ = true ∧ posB (j + l₁.length) l₂ = true := by
  induction l₁ generalizing j with
  | nil => exact ⟨rfl, by simpa using h⟩
  | cons a l ih =>
    rw [List.cons_append, posB_cons] at h
    obtain ⟨ha, hrest⟩ := h
    obtain ⟨h₁, h₂⟩ := ih hrest
    refine ⟨posB_cons.mpr ⟨ha, h₁⟩, ?_⟩
    have : j + 1 + (l.length : Int) = j + (a :: l).length := by
      simp
      ring
    rwa [this] at h₂

theorem posB_mem_bounds {l : List RowIndex} {j : Int} (h : posB j l = true) :
    ∀ e ∈ l, j ≤ e.lineIndex ∧ e.lineIndex < j + l.length := by
  induction l generalizing j with
  | nil => intro e he; simp at he
  | cons a rest ih =>
    rw [posB_cons] at h
    intro e he
    rcases List.mem_cons.mp he with rfl | hmem
    · simp
      omega
    · have := ih h.2 e hmem
      simp only [List.length_cons]
      push_cast
      omega

theorem shiftLoop_pos :
    ∀ (tail pre : List RowIndex) (i : Int), posB i tail = true →
      (∀ e ∈ pre, e.lineIndex < i) →
      shiftLoop (pre ++ tail) i tail.length = pre ++ tail.map shiftSpan := by
  intro tail
  induction tail with
  | nil =>
    intro pre i _ _
    simp [shiftLoop]
  | cons h t ih =>
    intro pre i hpos hpre
    obtain ⟨hh, ht⟩ := posB_cons.mp hpos
    simp only [List.length_cons, shiftLoop]
    have hupd : updateFirst (fun e => e.lineIndex == i) shiftSpan (pre ++ h :: t) =
        pre ++ shiftSpan h :: t := by
      refine updateFirst_split _ _ pre t h ?_ ?_
      · intro x hx
        have := hpre x hx
        simp only [beq_eq_false_iff_ne, ne_eq]
        omega
      · simpa using hh
    rw [hupd]
    have hre : pre ++ shiftSpan h :: t = (pre ++ [shiftSpan h]) ++ t := by
      simp
    rw [hre]
    rw [ih (pre ++ [shiftSpan h]) (i + 1) ht ?_]
    · simp
    · intro x hx
      rcases List.mem_append.mp hx with hm | hm
      · have := hpre x hm
        omega
      · have hx' : x = shiftSpan h := by simpa using hm
        subst hx'
        show h.lineIndex < i + 1
        omega

theorem chain_shift {es : List RowIndex} {m : Int} (h : chainFromB m es = true) :
    chainFromB (m + 1) (es.map shiftSpan) = true := by
  induction es generalizing m with
  | nil => rfl
  | cons a rest ih =>
    rw [chainFromB_cons] at h
    obtain ⟨hs, hsp, hc⟩ := h
    rw [List.map_cons, chainFromB_cons]
    refine ⟨?_, ?_, ?_⟩
    · show a.startIndex + 1 = m + 1
      omega
    · show a.startIndex + 1 ≤ a.endIndex + 1
      omega
    · show chainFromB (a.endIndex + 1 + 1) (rest.map shiftSpan) = true
      exact ih hc

theorem chain_bump {l₁ l₂ : List RowIndex} {e : RowIndex} {k : Int}
    (h : chainFromB k (l₁ ++ e :: l₂) = true) :
    chainFromB k (l₁ ++ { e with endIndex := e.endIndex + 1 } :: l₂.map shiftSpan)
      = true := by
  induction l₁ generalizing k with
  | nil =>
    rw [List.nil_append] at h ⊢
    rw [chainFromB_cons] at h ⊢
    obtain ⟨hs, hsp, hc⟩ := h
    exact ⟨hs, by show e.startIndex ≤ e.endIndex + 1; omega, chain_shift hc⟩
  | cons a l ih =>
    rw [List.cons_append] at h ⊢
    rw [chainFromB_cons] at h ⊢
    obtain ⟨hs, hsp, hc⟩ := h
    exact ⟨hs, hsp, ih hc⟩

theorem rowCount_append (l₁ l₂ : List RowIndex) :
    rowCount (l₁ ++ l₂) = rowCount l₁ + rowCount l₂ := by
  simp [rowCount]

theorem rowCount_map_shift (l : List RowIndex) :
    rowCount (l.map shiftSpan) = rowCount l := by
  induction l with
  | nil => rfl
  | cons a rest ih =>
    rw [List.map_cons, rowCount_cons, rowCount_cons, ih]
    have : spanLen (shiftSpan a) = spanLen a := by
      simp only [shiftSpan, spanLen]
      ring
    rw [this]

theorem addRowToLine_ok {es : List RowIndex} {r : Int}
    (hpos : posB 0 es = true) (hchain : chainFromB 0 es = true)
    (h0 : 0 ≤ r) (hr : r < rowCount es) :
    ∃ es', addRowToLine es r = some es' ∧ chainFromB 0 es' = true ∧
      rowCount es' = rowCount es + 1 := by
  obtain ⟨l₁, e, l₂, heq, hcov, hall⟩ := chain_cover_split hchain h0 (by omega)
  subst heq
  have hhead := filter_head_of_split (coversB r) l₁ l₂ e hall hcov
  obtain ⟨hposl₁, hpose⟩ := @posB_append l₁ (e :: l₂) 0 hpos
  have hpose' : posB (l₁.length : Int) (e :: l₂) = true := by
    simpa using hpose
  obtain ⟨heLine, hposl₂⟩ := posB_cons.mp hpose'
  have hupd : updateFirst (coversB r)
      (fun x => { x with endIndex := x.endIndex + 1 }) (l₁ ++ e :: l₂) =
      l₁ ++ { e with endIndex := e.endIndex + 1 } :: l₂ :=
    updateFirst_split _ _ l₁ l₂ e hall hcov
  have hstep : addRowToLine (l₁ ++ e :: l₂) r =
      some (shiftLoop (l₁ ++ { e with endIndex := e.endIndex + 1 } :: l₂)
        (e.lineIndex + 1)
        ((((l₁ ++ { e with endIndex := e.endIndex + 1 } :: l₂).length : Int) -
          (e.lineIndex + 1)).toNat)) := by
    unfold addRowToLine
    rw [hhead, hupd]
  have hfuel : ((((l₁ ++ { e with endIndex := e.endIndex + 1 } :: l₂).length : Int) -
      (e.lineIndex + 1)).toNat) = l₂.length := by
    rw [heLine]
    simp only [List.length_append, List.length_cons]
    push_cast
    omega
  have hposl₂' : posB (e.lineIndex + 1) l₂ = true := by
    rw [heLine]
    exact hposl₂
  have hloop : shiftLoop (l₁ ++ { e with endIndex := e.endIndex + 1 } :: l₂)
      (e.lineIndex + 1) l₂.length =
      l₁ ++ { e with endIndex := e.endIndex + 1 } :: l₂.map shiftSpan := by
    have hre : l₁ ++ { e with endIndex := e.endIndex + 1 } :: l₂ =
        (l₁ ++ [{ e with endIndex := e.endIndex + 1 }]) ++ l₂ := by
      simp
    have hprecond : ∀ x ∈ l₁ ++ [{ e with endIndex := e.endIndex + 1 }],
        x.lineIndex < e.lineIndex + 1 := by
      intro x hx
      rcases List.mem_append.mp hx with hm | hm
      · have := posB_mem_bounds hposl₁ x hm
        omega
      · have hx' : x = { e with endIndex := e.endIndex + 1 } := by simpa using hm
        subst hx'
        show e.lineIndex < e.lineIndex + 1
        omega
    have hsl := shiftLoop_pos l₂ (l₁ ++ [{ e with endIndex := e.endIndex + 1 }])
      (e.lineIndex + 1) hposl₂' hprecond
    rw [hre, hsl]
    simp
  refine ⟨l₁ ++ { e with endIndex := e.endIndex + 1 } :: l₂.map shiftSpan,
    ?_, chain_bump hchain, ?_⟩
  · rw [hstep, hfuel, hloop]
  · rw [rowCount_append, rowCount_cons, rowCount_map_shift,
      rowCount_append, rowCount_cons]
    simp only [spanLen]
    ring

theorem getRowIndex_covers {es : List RowIndex} {r : Int}
    (hchain : chainFromB 0 es = true) (h0 : 0 ≤ r) (hr : r < rowCount es) :
    ∃ e, getRowIndex es r = some e ∧ coversRow e r := by
  obtain ⟨l₁, e, l₂, heq, hcov, hall⟩ := chain_cover_split hchain h0 (by omega)
  subst heq
  refine ⟨e, ?_, ?_⟩
  · exact filter_head_of_split (coversB r) l₁ l₂ e hall hcov
  · exact coversB_eq_true.mp hcov

theorem getRowIndex_notFound {es : List RowIndex} {r : Int}
    (h : ∀ e ∈ es, ¬ coversRow e r) : getRowIndex es r = none := by
  unfold getRowIndex
  have : es.filter (coversB r) = [] := by
    rw [List.filter_eq_nil_iff]
    intro e he
    intro hc
    exact h e he (coversB_eq_true.mp hc)
  rw [this]
  rfl

theorem trimLoop_isSome_iff (cnt : Int) :
    ∀ (fuel i : Nat) (es : List RowIndex),
    (trimLoop cnt i fuel es).isSome = true ↔ (fuel = 0 ∨ i + fuel ≤ es.length) := by
  intro fuel
  induction fuel with
  | zero =>
    intro i es
    simp [trimLoop]
  | succ fuel ih =>
    intro i es
    by_cases hi : i < es.length
    · have hget : clGet es i = some (es.get ⟨i, hi⟩) := by
        simp [clGet, hi]
      rw [trimLoop, hget]
      rw [ih (i + 1) (es.set i (decAll cnt (es.get ⟨i, hi⟩)))]
      simp only [List.length_set]
      omega
    · have hget : clGet es i = none := by
        simp [clGet, hi]
      rw [trimLoop, hget]
      simp only [Option.isSome_none, Bool.false_eq_true, false_iff]
      push_neg
      omega

theorem trimStart_absent {s : LineWrapState} (count : Nat)
    (h : s.entries.length < s.maxLength) : trimStart s count = none := by
  unfold trimStart
  have hlen : (s.entries.drop count).length < s.maxLength := by
    rw [List.length_drop]
    omega
  have := trimLoop_isSome_iff count s.maxLength 0 (s.entries.drop count)
  have hnone : trimLoop (count : Int) 0 s.maxLength (s.entries.drop count) = none := by
    rcases hopt : trimLoop (count : Int) 0 s.maxLength (s.entries.drop count) with _ | v
    · rfl
    · exfalso
      have hs : (trimLoop (count : Int) 0 s.maxLength (s.entries.drop count)).isSome
          = true := by
        rw [hopt]; rfl
      rcases (trimLoop_isSome_iff count s.maxLength 0 _).mp hs with h5 | h5
      · omega
      · omega
  rw [hnone]
  rfl

theorem trimStart_total_full {s : LineWrapState} (count : Nat)
    (hle : s.entries.length ≤ s.maxLength)
    (h : (trimStart s count).isSome = true) : s.entries.length = s.maxLength := by
  unfold trimStart at h
  rcases hopt : trimLoop (count : Int) 0 s.maxLength (s.entries.drop count) with _ | v
  · rw [hopt] at h
    simp at h
  · have hs : (trimLoop (count : Int) 0 s.maxLength (s.entries.drop count)).isSome
        = true := by
      rw [hopt]
      rfl
    rcases (trimLoop_isSome_iff count s.maxLength 0 _).mp hs with h5 | h5
    · omega
    · rw [List.length_drop] at h5
      omega

end LineWrap

namespace Renderer

theorem foldQueue (ranges : List DirtyRange) :
    ∀ s : SchedState,
    (ranges.foldl (fun t x => queueRefresh t x.start x.endRow) s).refreshRowsQueue =
      s.refreshRowsQueue ++ ranges ∧
    (ranges.foldl (fun t x => queueRefresh t x.start x.endRow) s).refreshFramesSkipped =
      s.refreshFramesSkipped := by
  induction ranges with
  | nil => intro s; simp
  | cons x t ih =>
    intro s
    simp only [List.foldl_cons]
    obtain ⟨h1, h2⟩ := ih (queueRefresh s x.start x.endRow)
    rw [h1, h2]
    simp [queueRefresh]

theorem foldl_range_spec :
    ∀ (l : List DirtyRange) (a : Int × Int),
    ((l.foldl (fun p x => (min p.1 x.start, max p.2 x.endRow)) a).1 = a.1 ∨
      ∃ x ∈ l, (l.foldl (fun p x => (min p.1 x.start, max p.2 x.endRow)) a).1 = x.start) ∧
    (l.foldl (fun p x => (min p.1 x.start, max p.2 x.endRow)) a).1 ≤ a.1 ∧
    (∀ x ∈ l, (l.foldl (fun p x => (min p.1 x.start, max p.2 x.endRow)) a).1 ≤ x.start) ∧
    ((l.foldl (fun p x => (min p.1 x.start, max p.2 x.endRow)) a).2 = a.2 ∨
      ∃ x ∈ l, (l.foldl (fun p x => (min p.1 x.start, max p.2 x.endRow)) a).2 = x.endRow) ∧
    a.2 ≤ (l.foldl (fun p x => (min p.1 x.start, max p.2 x.endRow)) a).2 ∧
    (∀ x ∈ l, x.endRow ≤ (l.foldl (fun p x => (min p.1 x.start, max p.2 x.endRow)) a).2) := by
  intro l
  induction l with
  | nil =>
    intro a
    simp
  | cons x t ih =>
    intro a
    simp only [List.foldl_cons]
    obtain ⟨h1, h2, h3, h4, h5, h6⟩ := ih (min a.1 x.start, max a.2 x.endRow)
    refine ⟨?_, ?_, ?_, ?_, ?_, ?_⟩
    · rcases h1 with h1 | ⟨y, hy, h1⟩
      · rcases le_total a.1 x.start with hc | hc
        · exact Or.inl (by rw [h1]; exact min_eq_left hc)
        · exact Or.inr ⟨x, List.mem_cons_self x t, by rw [h1]; exact min_eq_right hc⟩
      · exact Or.inr ⟨y, List.mem_cons_of_mem x hy, h1⟩
    · calc _ ≤ min a.1 x.start := h2
        _ ≤ a.1 := min_le_left _ _
    · intro y hy
      rcases List.mem_cons.mp hy with rfl | hmem
      · calc _ ≤ min a.1 y.start := h2
          _ ≤ y.start := min_le_right _ _
      · exact h3 y hmem
    · rcases h4 with h4 | ⟨y, hy, h4⟩
      · rcases le_total a.2 x.endRow with hc | hc
        · exact Or.inr ⟨x, List.mem_cons_self x t, by rw [h4]; exact max_eq_right hc⟩
        · exact Or.inl (by rw [h4]; exact max_eq_left hc)
      · exact Or.inr ⟨y, List.mem_cons_of_mem x hy, h4⟩
    · calc a.2 ≤ max a.2 x.endRow := le_max_left _ _
        _ ≤ _ := h5
    · intro y hy
      rcases List.mem_cons.mp hy with rfl | hmem
      · calc y.endRow ≤ max a.2 y.endRow := le_max_right _ _
          _ ≤ _ := h5
      · exact h6 y hmem

theorem foldQueue_full (ranges : List DirtyRange) :
    ∀ s : SchedState, ranges ≠ [] →
    ranges.foldl (fun t x => queueRefresh t x.start x.endRow) s =
      ⟨s.refreshRowsQueue ++ ranges, s.refreshFramesSkipped, true⟩ := by
  induction ranges with
  | nil => intro s h; exact absurd rfl h
  | cons x t ih =>
    intro s _
    simp only [List.foldl_cons]
    cases t with
    | nil => simp [queueRefresh]
    | cons y u =>
      rw [ih (queueRefresh s x.start x.endRow) (by simp)]
      simp [queueRefresh]

theorem refreshLoop_wb0 (q : List DirtyRange) (fs : Nat) (armed : Bool) (rows : Int) :
    refreshLoop ⟨q, fs, armed⟩ 0 rows =
      if 4 < q.length then some (⟨[], 0, false⟩, some (0, rows - 1))
      else
        match q with
        | [] => none
        | d :: rest =>
          some (⟨[], 0, false⟩,
            some (rest.foldl (fun p x => (min p.1 x.start, max p.2 x.endRow))
              (d.start, d.endRow))) := by
  simp [refreshLoop]

theorem refreshLoop_dispatch (d : DirtyRange) (rest : List DirtyRange)
    (rows : Int) (fs0 : Nat) :
    ∃ st en,
      refreshLoop ((d :: rest).foldl (fun t x => queueRefresh t x.start x.endRow)
        ⟨[], fs0, false⟩) 0 rows = some (⟨[], 0, false⟩, some (st, en)) ∧
      (4 < (d :: rest).length → st = 0 ∧ en = rows - 1) ∧
      ((d :: rest).length ≤ 4 →
        (∃ x ∈ d :: rest, st = x.start) ∧ (∀ x ∈ d :: rest, st ≤ x.start) ∧
        (∃ x ∈ d :: rest, en = x.endRow) ∧ (∀ x ∈ d :: rest, x.endRow ≤ en)) := by
  rw [foldQueue_full (d :: rest) ⟨[], fs0, false⟩ (by simp)]
  simp only [List.nil_append]
  rw [refreshLoop_wb0]
  by_cases hlen : 4 < (d :: rest).length
  · rw [if_pos hlen]
    exact ⟨0, rows - 1, rfl, fun _ => ⟨rfl, rfl⟩, fun hc => absurd hlen (by omega)⟩
  · rw [if_neg hlen]
    obtain ⟨h1, h2, h3, h4, h5, h6⟩ := foldl_range_spec rest (d.start, d.endRow)
    refine ⟨_, _, rfl, fun hc => absurd hc hlen, fun _ => ⟨?_, ?_, ?_, ?_⟩⟩
    · rcases h1 with h1 | ⟨y, hy, h1⟩
      · exact ⟨d, List.mem_cons_self d rest, h1⟩
      · exact ⟨y, List.mem_cons_of_mem d hy, h1⟩
    · intro y hy
      rcases List.mem_cons.mp hy with rfl | hmem
      · exact h2
      · exact h3 y hmem
    · rcases h4 with h4 | ⟨y, hy, h4⟩
      · exact ⟨d, List.mem_cons_self d rest, h4⟩
      · exact ⟨y, List.mem_cons_of_mem d hy, h4⟩
    · intro y hy
      rcases List.mem_cons.mp hy with rfl | hmem
      · exact h5
      · exact h6 y hmem

theorem chunkGo_length_le (k : Nat) :
    ∀ (fuel : Nat) (l : JsLine), ∀ seg ∈ chunkGo fuel l k, seg.length ≤ k := by
  intro fuel
  induction fuel with
  | zero => intro l seg hseg; simp [chunkGo] at hseg
  | succ fuel ih =>
    intro l seg hseg
    rw [chunkGo] at hseg
    split at hseg
    · simp at hseg
    · rcases List.mem_cons.mp hseg with rfl | hmem
      · exact List.length_take_le k l
      · exact ih _ seg hmem

theorem chunkArray_length_le (l : JsLine) (k : Nat) :
    ∀ seg ∈ chunkArray l k, seg.length ≤ k :=
  chunkGo_length_le k l.length l

theorem chunkArray_ne_nil {l : JsLine} {k : Nat} (hl : l ≠ []) (hk : k ≠ 0) :
    chunkArray l k ≠ [] := by
  cases l with
  | nil => exact absurd rfl hl
  | cons a t =>
    unfold chunkArray
    simp only [List.length_cons]
    rw [chunkGo]
    simp [hk]

theorem trimBlank_length_ge (line : JsLine) (mn : Nat) (blank : Int)
    (h : mn < line.length) : mn ≤ (trimBlank line mn blank).length := by
  simp only [trimBlank]
  by_cases hi : trimBlankScan line mn blank line.length < (mn : Int)
  · rw [if_pos hi]
    simp only [List.length_take]
    omega
  · rw [if_neg hi]
    push_neg at hi
    simp only [List.length_take]
    omega

theorem decodeAttr_inverse_pin_bg (data : Nat) (bb : Bool)
    (hinv : (data / 262144).testBit 3 = true)
    (hfg : (data / 512) % 512 = 257) : (decodeAttr data bb).bg = 15 := by
  simp only [decodeAttr, hinv, hfg]
  norm_num

theorem decodeAttr_inverse_pin_fg (data : Nat) (bb : Bool)
    (hinv : (data / 262144).testBit 3 = true)
    (hbg : data % 512 = 256) : (decodeAttr data bb).fg = 0 := by
  simp only [decodeAttr, hinv, hbg]
  norm_num

theorem decodeAttr_bold_fg (data : Nat) (bb : Bool)
    (hbold : (data / 262144).testBit 0 = true)
    (hninv : (data / 262144).testBit 3 = false)
    (hlt : (data / 512) % 512 < 8) :
    (decodeAttr data bb).fg = ((data / 512) % 512 : Nat) + 8 := by
  have hlt' : (((data / 512) % 512 : Nat) : Int) < 8 := by exact_mod_cast hlt
  simp only [decodeAttr, hbold, hninv, hlt', Bool.false_eq_true, false_and,
    if_false, true_and, if_true, if_pos hlt']

theorem mem_ite_push {α : Type} {c : Prop} [Decidable c] {x y : α} {l : List α} :
    (x ∈ if c then l ++ [y] else l) ↔ x ∈ l ∨ (c ∧ x = y) := by
  split_ifs with h <;> simp [h]

theorem decodeAttr_bold_class (data : Nat) (bb : Bool)
    (hbold : (data / 262144).testBit 0 = true) :
    (CssClass.bold ∈ (decodeAttr data bb).classNames ↔ bb = false) := by
  simp only [decodeAttr, hbold, true_and]
  simp only [mem_ite_push]
  cases bb <;> simp

end Renderer

open LineWrap Renderer

/-- C1 counterexample: a single-entry state whose span starts at row 1
keeps that start through `changeLineLength` (the first entry's
`startIndex` is never reset), so the resulting entries do not partition
`[0, rowCount)`: row 0 is uncovered. -/
theorem claim1_counterexample :
    ¬ PartitionsRows (changeLineLength
      (fun i => if i = 0 then some [⟨1, 'a', 1⟩] else none) 1 1
      [⟨0, 1, 1, none⟩]) := by
  intro h
  have hres : changeLineLength
      (fun i => if i = 0 then some [⟨1, 'a', 1⟩] else none) 1 1
      [⟨0, 1, 1, none⟩] = [⟨0, 1, 1, none⟩] := by decide
  rw [hres] at h
  have h0 := (h.1 0).mp (by constructor <;> decide)
  obtain ⟨e, he, hcov⟩ := h0
  have : e = (⟨0, 1, 1, none⟩ : LineWrap.RowIndex) := by simpa using he
  subst this
  obtain ⟨h1, h2⟩ := hcov
  simp only [] at h1
  omega

/-- C1 (amended): after `changeLineLength` the adjacency invariant
`startIndex(i+1) = endIndex(i) + 1` holds for every state; the entries
partition `[0, rowCount)` provided the first entry already starts at row 0
and orphaned entries have well-formed spans.  After `addRowToLine(r)` the
partition is preserved (with one more row) provided the state partitions
`[0, rowCount)`, entries sit at their own `lineIndex` position, and `r` is
a covered row. -/
theorem claim1_reflow_partition :
    (∀ (lines : Int → Option JsLine) (w : Nat) (cp : Int)
        (es : List LineWrap.RowIndex),
      adjacentB (changeLineLength lines w cp es) = true ∧
      (headStart0B es = true → orphanSpansOkB lines es = true →
        PartitionsRows (changeLineLength lines w cp es))) ∧
    (∀ (es : List LineWrap.RowIndex) (r : Int),
      posB 0 es = true → chainFromB 0 es = true → 0 ≤ r → r < rowCount es →
      ∃ es', addRowToLine es r = some es' ∧ adjacentB es' = true ∧
        PartitionsRows es' ∧ rowCount es' = rowCount es + 1) := by
  constructor
  · intro lines w cp es
    refine ⟨changeLineLength_adjacent lines w cp es, fun h0 horph => ?_⟩
    refine partitionsRows_of_chain (changeLineLength_chain lines w cp es h0 ?_)
    intro e he hno
    have := List.all_eq_true.mp horph e he
    simp only [hno, Bool.false_or, decide_eq_true_eq] at this
    exact this
  · intro es r hpos hchain h0 hr
    obtain ⟨es', hsome, hchain', hcount⟩ := addRowToLine_ok hpos hchain h0 hr
    exact ⟨es', hsome, chain_imp_adjacent hchain',
      partitionsRows_of_chain hchain', hcount⟩

/-- Witness for C1: the amended theorem applied to a concrete two-line
buffer and a concrete canonical two-entry index. -/
theorem claim1_reflow_partition_witness :
    (adjacentB (changeLineLength
        (fun i => if i = 0 ∨ i = 1 then some [⟨1, 'x', 1⟩] else none) 2 3
        [⟨0, 0, 0, none⟩, ⟨1, 1, 1, none⟩]) = true ∧
      PartitionsRows (changeLineLength
        (fun i => if i = 0 ∨ i = 1 then some [⟨1, 'x', 1⟩] else none) 2 3
        [⟨0, 0, 0, none⟩, ⟨1, 1, 1, none⟩])) ∧
    (∃ es', addRowToLine [⟨0, 0, 1, none⟩, ⟨1, 2, 2, none⟩] 1 = some es' ∧
      adjacentB es' = true ∧ PartitionsRows es' ∧
      rowCount es' = rowCount [⟨0, 0, 1, none⟩, ⟨1, 2, 2, none⟩] + 1) :=
  ⟨⟨(claim1_reflow_partition.1 _ 2 3 _).1,
    (claim1_reflow_partition.1 _ 2 3 _).2 (by decide) (by decide)⟩,
   claim1_reflow_partition.2 _ 1 (by decide) (by decide) (by decide) (by decide)⟩

/-- C2 counterexample: with two retained uncached lines, the second line
(3 live characters, width 1) is laid out with a single row — its fallback
significant length is `0`, not the stripped live content length `3` the
claim predicts. -/
theorem claim2_counterexample :
    (changeLineLength
        (fun i => if i = 0 then some [⟨1, 'a', 1⟩]
          else if i = 1 then some [⟨1, 'a', 1⟩, ⟨1, 'a', 1⟩, ⟨1, 'a', 1⟩] else none)
        1 1 [⟨0, 0, 0, none⟩, ⟨1, 1, 1, none⟩]).map spanLen ≠
      specRowCountsFromContent
        (fun i => if i = 0 then some [⟨1, 'a', 1⟩]
          else if i = 1 then some [⟨1, 'a', 1⟩, ⟨1, 'a', 1⟩, ⟨1, 'a', 1⟩] else none)
        1 [⟨0, 0, 0, none⟩, ⟨1, 1, 1, none⟩] := by
  decide

/-- C2 (amended): `changeLineLength` assigns each retained entry the span
`max(1, ceil(ℓ / width))` where `ℓ` is the cached `lineLength` sample if
present, else `cursorPos` for the first uncached retained entry in
iteration order and `0` for every later one (not the stripped live content
length); orphaned entries keep their span, and `rowCount` afterwards is
the sum of these per-entry counts. -/
theorem claim2_rowcounts (lines : Int → Option JsLine) (w : Nat) (cp : Int)
    (es : List LineWrap.RowIndex) :
    (changeLineLength lines w cp es).map spanLen =
      layoutRowCounts lines w cp false es ∧
    rowCount (changeLineLength lines w cp es) =
      (layoutRowCounts lines w cp false es).sum := by
  refine ⟨changeLineLength_spanLens lines w cp es, ?_⟩
  rw [rowCount, changeLineLength_spanLens lines w cp es]

/-- C3: `changeLineLength` is idempotent — repeating the call with the
same buffer, width and cursor position leaves every entry unchanged. -/
theorem claim3_idempotent (lines : Int → Option JsLine) (w : Nat) (cp : Int)
    (es : List LineWrap.RowIndex) :
    changeLineLength lines w cp (changeLineLength lines w cp es) =
      changeLineLength lines w cp es :=
  changeLineLength_idem lines w cp es

/-- C4: N ≥ 1 queued refreshes followed by one un-skipped frame dispatch
exactly one merged refresh and clear the queue; the merged range is
`[0, rows − 1]` when more than 4 ranges are queued, else
`[min starts, max ends]`. -/
theorem claim4_merged_refresh (d : DirtyRange) (rest : List DirtyRange)
    (rows : Int) (fs0 : Nat) :
    ∃ st en,
      refreshLoop ((d :: rest).foldl (fun t x => queueRefresh t x.start x.endRow)
        ⟨[], fs0, false⟩) 0 rows = some (⟨[], 0, false⟩, some (st, en)) ∧
      (4 < (d :: rest).length → st = 0 ∧ en = rows - 1) ∧
      ((d :: rest).length ≤ 4 →
        (∃ x ∈ d :: rest, st = x.start) ∧ (∀ x ∈ d :: rest, st ≤ x.start) ∧
        (∃ x ∈ d :: rest, en = x.endRow) ∧ (∀ x ∈ d :: rest, x.endRow ≤ en)) :=
  refreshLoop_dispatch d rest rows fs0

/-- Witness for C4: two queued ranges merge into one dispatched refresh. -/
theorem claim4_merged_refresh_witness :
    ∃ st en,
      refreshLoop (((⟨2, 3⟩ : DirtyRange) :: [⟨0, 5⟩]).foldl
        (fun t x => queueRefresh t x.start x.endRow) ⟨[], 0, false⟩) 0 24 =
        some (⟨[], 0, false⟩, some (st, en)) ∧
      (4 < ((⟨2, 3⟩ : DirtyRange) :: [⟨0, 5⟩]).length → st = 0 ∧ en = 24 - 1) ∧
      (((⟨2, 3⟩ : DirtyRange) :: [⟨0, 5⟩]).length ≤ 4 →
        (∃ x ∈ (⟨2, 3⟩ : DirtyRange) :: [⟨0, 5⟩], st = x.start) ∧
        (∀ x ∈ (⟨2, 3⟩ : DirtyRange) :: [⟨0, 5⟩], st ≤ x.start) ∧
        (∃ x ∈ (⟨2, 3⟩ : DirtyRange) :: [⟨0, 5⟩], en = x.endRow) ∧
        (∀ x ∈ (⟨2, 3⟩ : DirtyRange) :: [⟨0, 5⟩], x.endRow ≤ en)) :=
  claim4_merged_refresh ⟨2, 3⟩ [⟨0, 5⟩] 24 0

/-- C5 counterexample: a cell with only the inverse flag, stored
background index 257 and stored foreground 0 decodes to an emitted
background of 0, not 15 — the pin applies to the swapped background
(the stored foreground), not to the stored background. -/
theorem claim5_counterexample :
    2097409 % 512 = 257 ∧ (2097409 / 262144).testBit 3 = true ∧
      ¬ (decodeAttr 2097409 false).bg = 15 := by
  decide

/-- C5 (amended): under the inverse flag the foreground and background are
swapped and the swap artifacts are pinned on the swapped values: a stored
foreground index 257 (the swapped background) yields emitted background
15, and a stored background index 256 (the swapped foreground) yields
emitted foreground 0. -/
theorem claim5_inverse_pinning (data : Nat) (bb : Bool)
    (hinv : (data / 262144).testBit 3 = true) :
    ((data / 512) % 512 = 257 → (decodeAttr data bb).bg = 15) ∧
    (data % 512 = 256 → (decodeAttr data bb).fg = 0) :=
  ⟨fun hfg => decodeAttr_inverse_pin_bg data bb hinv hfg,
   fun hbg => decodeAttr_inverse_pin_fg data bb hinv hbg⟩

/-- Witness for C5: the default-attribute cell (foreground 257, background
256) under inverse pins to background 15 and foreground 0. -/
theorem claim5_inverse_pinning_witness :
    (decodeAttr 2228992 false).bg = 15 ∧ (decodeAttr 2228992 false).fg = 0 :=
  ⟨(claim5_inverse_pinning 2228992 false (by decide)).1 (by decide),
   (claim5_inverse_pinning 2228992 false (by decide)).2 (by decide)⟩

/-- C6 counterexample: with the broken-bold capability flag set, a bold
cell with foreground 3 is still promoted to foreground 11 — the flag only
suppresses the bold style class, not the colour promotion. -/
theorem claim6_counterexample :
    (263680 / 262144).testBit 0 = true ∧ (263680 / 512) % 512 = 3 ∧
      ¬ (decodeAttr 263680 true).fg = 3 := by
  decide

/-- C6 (amended): for a bold, non-inverse cell with foreground palette
index below 8, the foreground is promoted to `index + 8` regardless of the
broken-bold flag; the flag gates only the bold style class. -/
theorem claim6_bold_promotion (data : Nat) (bb : Bool)
    (hbold : (data / 262144).testBit 0 = true)
    (hninv : (data / 262144).testBit 3 = false)
    (hlt : (data / 512) % 512 < 8) :
    (decodeAttr data bb).fg = ((data / 512) % 512 : Nat) + 8 ∧
    (CssClass.bold ∈ (decodeAttr data bb).classNames ↔ bb = false) :=
  ⟨decodeAttr_bold_fg data bb hbold hninv hlt,
   decodeAttr_bold_class data bb hbold⟩

/-- Witness for C6: the counterexample cell, decoded with broken bold. -/
theorem claim6_bold_promotion_witness :
    (decodeAttr 263680 true).fg = (263680 / 512) % 512 + 8 ∧
    (CssClass.bold ∈ (decodeAttr 263680 true).classNames ↔ true = false) :=
  claim6_bold_promotion 263680 true (by decide) (by decide) (by decide)

/-- C7: with 5 frames already skipped and a non-empty write backlog, the
next frame callback is skipped again (a sixth consecutive skip, because
the test is `skipped++ <= 5`), and only the seventh fires a repaint —
contradicting the documented maximum of 5 skipped frames. -/
theorem claim7_sixth_skip :
    refreshLoop ⟨[⟨0, 0⟩], 5, true⟩ 1 24 = some (⟨[⟨0, 0⟩], 6, true⟩, none) ∧
    refreshLoop ⟨[⟨0, 0⟩], 6, true⟩ 1 24 = some (⟨[], 0, false⟩, some (0, 0)) := by
  decide

/-- C8 counterexample: an all-blank 25-cell row at width 10 is trimmed to
a single width-10 segment, not to segments of lengths 10, 10 and a
non-empty remainder. -/
theorem claim8_counterexample :
    (chunkArray (trimBlank (List.replicate 25 ⟨0, ' ', 1⟩) 10 0) 10).map
        List.length = [10] ∧
    ∀ restSegs : List Nat,
      (chunkArray (trimBlank (List.replicate 25 ⟨0, ' ', 1⟩) 10 0) 10).map
        List.length ≠ 10 :: 10 :: restSegs := by
  have h10 : (chunkArray (trimBlank (List.replicate 25 ⟨0, ' ', 1⟩) 10 0) 10).map
      List.length = [10] := by decide
  refine ⟨h10, ?_⟩
  intro restSegs hr
  rw [h10] at hr
  simp at hr

/-- C8 (amended): for any row longer than the positive column width, the
trimmed row keeps at least `width` cells, the chunk list is never empty
and every chunk has at most `width` cells; a 25-cell row whose content
reaches the last cell chunks into segments of lengths 10, 10 and 5. -/
theorem claim8_chunking :
    (∀ (line : JsLine) (width : Nat) (blank : Int),
      1 ≤ width → width < line.length →
      chunkArray (trimBlank line width blank) width ≠ [] ∧
      (∀ seg ∈ chunkArray (trimBlank line width blank) width,
        seg.length ≤ width) ∧
      width ≤ (trimBlank line width blank).length) ∧
    (chunkArray (trimBlank (List.replicate 25 ⟨1, 'x', 1⟩) 10 0) 10).map
      List.length = [10, 10, 5] := by
  constructor
  · intro line width blank hw hlen
    have htr := trimBlank_length_ge line width blank hlen
    refine ⟨?_, chunkArray_length_le _ _, htr⟩
    have hne : trimBlank line width blank ≠ [] := by
      intro hnil
      rw [hnil] at htr
      simp at htr
      omega
    exact chunkArray_ne_nil hne (by omega)
  · decide

/-- Witness for C8: the general bounds applied to the 25-cell row of
non-blank cells at width 10. -/
theorem claim8_chunking_witness :
    chunkArray (trimBlank (List.replicate 25 ⟨1, 'x', 1⟩) 10 0) 10 ≠ [] ∧
    (∀ seg ∈ chunkArray (trimBlank (List.replicate 25 ⟨1, 'x', 1⟩) 10 0) 10,
      seg.length ≤ 10) ∧
    10 ≤ (trimBlank (List.replicate 25 ⟨1, 'x', 1⟩) 10 0).length :=
  claim8_chunking.1 (List.replicate 25 ⟨1, 'x', 1⟩) 10 0 (by decide) (by decide)

/-- C9: `getRowIndex(r)` returns a covering entry for every row `r` of a
state that partitions `[0, rowCount)`, and returns `NotFound` (`none`)
whenever no entry's span contains `r`. -/
theorem claim9_getRowIndex (es : List LineWrap.RowIndex) (r : Int) :
    (chainFromB 0 es = true → 0 ≤ r → r < rowCount es →
      ∃ e, getRowIndex es r = some e ∧ coversRow e r) ∧
    ((∀ e ∈ es, ¬ coversRow e r) → getRowIndex es r = none) :=
  ⟨fun h1 h2 h3 => getRowIndex_covers h1 h2 h3,
   fun h => getRowIndex_notFound h⟩

/-- Witness for C9: a two-entry partition answers a covered row with its
entry and an uncovered row with `none`. -/
theorem claim9_getRowIndex_witness :
    (∃ e, getRowIndex [⟨0, 0, 1, none⟩, ⟨1, 2, 2, none⟩] 2 = some e ∧
      coversRow e 2) ∧
    getRowIndex [⟨0, 0, 1, none⟩, ⟨1, 2, 2, none⟩] 5 = none :=
  ⟨(claim9_getRowIndex [⟨0, 0, 1, none⟩, ⟨1, 2, 2, none⟩] 2).1
      (by decide) (by decide) (by decide),
   (claim9_getRowIndex [⟨0, 0, 1, none⟩, ⟨1, 2, 2, none⟩] 5).2 (by decide)⟩

/-- C10: `trimStart` dereferences every position up to `maxLength` after
dropping, so it is total only when the index holds exactly `maxLength`
entries; on any state holding fewer entries than `maxLength` it
dereferences an absent entry and fails. -/
theorem claim10_trimStart (s : LineWrapState) (count : Nat) :
    (s.entries.length ≤ s.maxLength → (trimStart s count).isSome = true →
      s.entries.length = s.maxLength) ∧
    (s.entries.length < s.maxLength → trimStart s count = none) :=
  ⟨fun hle h => trimStart_total_full count hle h,
   fun h => trimStart_absent count h⟩

/-- Witness for C10: a capacity-2 index holding one entry fails on
`trimStart 1`. -/
theorem claim10_trimStart_witness :
    trimStart ⟨[⟨0, 0, 0, none⟩], 2⟩ 1 = none :=
  (claim10_trimStart ⟨[⟨0, 0, 0, none⟩], 2⟩ 1).2 (by decide)
